import Mathlib

/-!
Verification of the exim log-cruncher (Go) against its specification.

The development shallowly embeds the two source variants:
* the sequential "symmetric" variant (`main.go` and the first document of
  `part_000`), which classifies a parsed pair against a single inclusion
  regex on both sides, and
* the concurrent "sender-anchored" variant (second document of `part_000`),
  which anchors on the sender, applies a separate exclusion regex to the
  recipient, case-folds with a hand-rolled ASCII `toLower`, and protects the
  aggregation map (and the distinct-owner counter) with a mutex while
  leaving the other counters unsynchronized.

Lines are `List Char`; the fixed extraction regex
`.+ <= (?P<from>\S+) .+ for (?P<to>\S+)` is embedded as a backtracking
matcher with Go regexp's leftmost-first (Perl preference) semantics.
Configured regexes (inclusion `-email`, exclusion `-ignore`) are inputs of
the program and are embedded as boolean predicates on addresses.
-/

namespace EximCrunch

/-- Addresses and lines are sequences of runes. -/
abbrev Addr := List Char

/-- Go regexp whitespace class `\s`, i.e. `[\t\n\f\r ]`. -/
def isWSGo (c : Char) : Bool :=
  c = ' ' || c = '\t' || c = '\n' || c = Char.ofNat 12 || c = '\r'

/-- Complement of `isWSGo`; the character class `\S` of the extraction regex. -/
def nonWS (c : Char) : Bool := !isWSGo c

/-- Literal fragment ` <= ` of the extraction regex `lineMatch`. -/
def mLE : List Char := [' ', '<', '=', ' ']

/-- Literal fragment ` for ` of the extraction regex `lineMatch`. -/
def mFor : List Char := [' ', 'f', 'o', 'r', ' ']

/-- Strip an expected literal prefix, returning the remainder on success. -/
def stripLit : List Char → List Char → Option (List Char)
  | [], s => some s
  | _ :: _, [] => none
  | a :: as, b :: bs => if a = b then stripLit as bs else none

/-- Greedy `.*` (any char but newline) in continuation style: the longest
consumption whose continuation succeeds wins, matching Perl/Go preference
order. -/
def dotStar {α : Type} (k : List Char → Option α) : List Char → Option α
  | [] => k []
  | c :: cs =>
    match (if c = '\n' then none else dotStar k cs) with
    | some r => some r
    | none => k (c :: cs)

/-- Greedy `.+` in continuation style. -/
def dotPlus {α : Type} (k : List Char → Option α) : List Char → Option α
  | [] => none
  | c :: cs => if c = '\n' then none else dotStar k cs

/-- Maximal `\S+` token at the front of a string. -/
def tokenOf (s : List Char) : List Char := s.takeWhile nonWS

/-- Remainder after the maximal `\S+` token at the front of a string. -/
def restOf (s : List Char) : List Char := s.dropWhile nonWS

/-- Continuation after the second `.+`: the literal ` for ` followed by the
captured `(?P<to>\S+)`. -/
def k2 (r : List Char) : Option (List Char) :=
  match stripLit mFor r with
  | none => none
  | some r1 => if tokenOf r1 = [] then none else some (tokenOf r1)

/-- Continuation after the first `.+`: the literal ` <= `, the captured
`(?P<from>\S+)`, a space, then `.+ for (?P<to>\S+)`.  `\S+` is maximal-munch:
shortening it would place a non-space where the regex demands a space, so the
span-based reading is exactly the backtracking semantics. -/
def k1 (r : List Char) : Option (List Char × List Char) :=
  match stripLit mLE r with
  | none => none
  | some r1 =>
    if tokenOf r1 = [] then none
    else
      match restOf r1 with
      | [] => none
      | d :: r2 =>
        if d = ' ' then
          match dotPlus k2 r2 with
          | none => none
          | some t => some (tokenOf r1, t)
        else none

/-- Match of the whole pattern `.+ <= (\S+) .+ for (\S+)` anchored at the
start of the string. -/
def matchHere (s : List Char) : Option (List Char × List Char) := dotPlus k1 s

/-- `lineMatch.FindSubmatch`: unanchored leftmost-first search, returning the
two captures `(from, to)` when the line matches. -/
def findSubmatch : List Char → Option (List Char × List Char)
  | [] => matchHere []
  | c :: cs =>
    match matchHere (c :: cs) with
    | some r => some r
    | none => findSubmatch cs

/-- Spec-side reading of "the line matches the fixed delivery-record
pattern": some decomposition realises `.+ <= (\S+) .+ for (\S+)` somewhere in
the line (`.` excludes newline, `\S` excludes Go whitespace). -/
def PatternMatches (s : List Char) : Prop :=
  ∃ p a f b t r,
    s = p ++ a ++ mLE ++ f ++ ' ' :: b ++ mFor ++ t ++ r ∧
    a ≠ [] ∧ (∀ c ∈ a, c ≠ '\n') ∧
    f ≠ [] ∧ (∀ c ∈ f, isWSGo c = false) ∧
    b ≠ [] ∧ (∀ c ∈ b, c ≠ '\n') ∧
    t ≠ [] ∧ (∀ c ∈ t, isWSGo c = false)

/-- Spec-side reading of "`tok` is exactly the whitespace-delimited token
immediately following the marker": the line contains the marker, `tok` is a
nonempty run of non-whitespace right after it, and the run is maximal (what
follows is end-of-line or whitespace). -/
def TokenAfterMarker (marker s tok : List Char) : Prop :=
  tok ≠ [] ∧ (∀ c ∈ tok, isWSGo c = false) ∧
  ∃ pre post,
    s = pre ++ marker ++ tok ++ post ∧
    (post = [] ∨ ∃ d ds, post = d :: ds ∧ isWSGo d = true)

/-- Round-trip example line from the specification. -/
def exLine : List Char :=
  "2024-01-01 10:00:00 <= alice@test.com H=mail for bob@other.com\n".toList

/-- Sender token of the example line. -/
def exFrom : List Char := "alice@test.com".toList

/-- Recipient token of the example line. -/
def exTo : List Char := "bob@other.com".toList

/-- Shallow embedding of the Go map `map[string]map[string]bool`: an
association list from owner address to its correspondent set (the key set of
the inner `map[string]bool`). -/
abbrev AggMap := List (Addr × List Addr)

/-- Lookup `emails[k]`, returning the first binding for `k`. -/
def lookupA (k : Addr) : AggMap → Option (List Addr)
  | [] => none
  | (k2, v) :: m => if k2 = k then some v else lookupA k m

/-- In-place mutation of the inner map bound to `k` (`val[c] = true` through
the reference obtained from `emails[k]`). -/
def updateA (k : Addr) (v : List Addr) : AggMap → AggMap
  | [] => []
  | (k2, v2) :: m => if k2 = k then (k2, v) :: m else (k2, v2) :: updateA k v m

/-- Key-set effect of `val[x] = true` on an inner `map[string]bool`. -/
def insertSet (x : Addr) (s : List Addr) : List Addr :=
  if x ∈ s then s else s ++ [x]

/-- The aggregator body shared by both variants:
`val, ok := emails[owner]; if ok { val[corr] = true } else create a
singleton inner map for the owner`. -/
def record (owner corr : Addr) (m : AggMap) : AggMap :=
  match lookupA owner m with
  | some s => updateA owner (insertSet corr s) m
  | none => (owner, [corr]) :: m

/-- Correspondent set of an owner, empty when the owner is absent. -/
def getSet (owner : Addr) (m : AggMap) : List Addr :=
  (lookupA owner m).getD []

/-- ASCII-only case folding of the concurrent variant: with
`letterDiff = 'A' - 'a' = -32`, the branch returns `r - letterDiff`,
i.e. the code point `r + 32`; every other rune is returned unchanged. -/
def toLower (r : Char) : Char :=
  if 'A' ≤ r ∧ r ≤ 'Z' then Char.ofNat (r.toNat + 32) else r

/-- Rune-wise case folding `bytes.Map(toLower, a)` of the concurrent
variant. -/
def lowerAddr (a : Addr) : Addr := a.map toLower

/-- The process-wide mutable state touched by the per-line pipeline of the
concurrent variant: the aggregation map and the four run counters. -/
structure ConcState where
  emails : AggMap
  lineCount : Nat
  matchCount : Nat
  ignoreCount : Nat
  fromCount : Nat

/-- The `writeLock`-protected critical section of `processFile`: insert the
correspondent under the owner, bumping `fromCount` when a fresh owner entry
is created. -/
def recordSt (owner corr : Addr) (st : ConcState) : ConcState :=
  match lookupA owner st.emails with
  | some v => { st with emails := updateA owner (insertSet corr v) st.emails }
  | none =>
    { st with
      emails := (owner, [corr]) :: st.emails
      fromCount := st.fromCount + 1 }

/-- Disposition of one parsed pair `(from, to)` in the concurrent
`processFile`: discard when `from` misses the inclusion regex, discard when
`to` hits the exclusion regex, otherwise case-fold both and record; the two
discard paths `continue` and therefore skip the loop-bottom `lineCount++`. -/
def processMatched (em ig : Addr → Bool) (fromAddr toAddr : Addr)
    (st : ConcState) : ConcState :=
  if em fromAddr = false then { st with ignoreCount := st.ignoreCount + 1 }
  else if ig toAddr = true then { st with ignoreCount := st.ignoreCount + 1 }
  else
    let st2 := recordSt (lowerAddr fromAddr) (lowerAddr toAddr) st
    { st2 with
      matchCount := st2.matchCount + 1
      lineCount := st2.lineCount + 1 }

/-- One loop iteration of the concurrent `processFile` on a successfully read
line. -/
def stepLine (em ig : Addr → Bool) (st : ConcState) (line : List Char) :
    ConcState :=
  match findSubmatch line with
  | some (f, t) => processMatched em ig f t st
  | none => { st with lineCount := st.lineCount + 1 }

/-- State touched by the per-line pipeline of the sequential symmetric
variant (`main.go`): the aggregation map and its three counters. -/
structure SymState where
  emails : AggMap
  lineCount : Nat
  matchCount : Nat
  ignoreCount : Nat

/-- Disposition of one parsed pair in the symmetric variant. `g1` is the
first capture (bound to the code variable `to`) and `g2` the second capture
(bound to `from`): discard when both match the inclusion regex; otherwise the
owner is `g1` when `g1` matches and `g2` otherwise, with the other token as
correspondent. -/
def processMatchedSym (em : Addr → Bool) (g1 g2 : Addr) (st : SymState) :
    SymState :=
  if em g1 && em g2 then { st with ignoreCount := st.ignoreCount + 1 }
  else
    { st with
      emails := if em g1 then record g1 g2 st.emails else record g2 g1 st.emails
      matchCount := st.matchCount + 1
      lineCount := st.lineCount + 1 }

/-- One loop iteration of the symmetric variant on a successfully read
line. -/
def stepLineSym (em : Addr → Bool) (st : SymState) (line : List Char) :
    SymState :=
  match findSubmatch line with
  | some (g1, g2) => processMatchedSym em g1 g2 st
  | none => { st with lineCount := st.lineCount + 1 }

/-- Result of one `reader.ReadBytes` call that is not end-of-file: either a
complete line or a non-EOF read error (a failed decompressing read surfaces
the same way). -/
inductive ReadEvent where
  | line (l : List Char)
  | readErr

/-- The read loop of the concurrent `processFile` over the sequence of read
results of one file: EOF (`[]`) breaks normally, a complete line runs the
per-line pipeline, and a non-EOF error logs and returns, abandoning every
remaining event of this file. -/
def processEvents (em ig : Addr → Bool) (st : ConcState) :
    List ReadEvent → ConcState
  | [] => st
  | ReadEvent.line l :: rest => processEvents em ig (stepLine em ig st l) rest
  | ReadEvent.readErr :: _ => st

/-- Sequential composition of per-file processing over a list of files (the
shared state threads through all of them). -/
def runFiles (em ig : Addr → Bool) (st : ConcState) :
    List (List ReadEvent) → ConcState
  | [] => st
  | f :: fs => runFiles em ig (processEvents em ig st f) fs

/-- Helper of `splitLines`: `acc` is the partial line read so far.  At
end-of-input the partial line is dropped, exactly as the loop breaks on EOF
before processing the data returned alongside it. -/
def splitAux : List Char → List Char → List (List Char)
  | [], _ => []
  | c :: cs, acc =>
    if c = '\n' then (acc ++ [c]) :: splitAux cs []
    else splitAux cs (acc ++ [c])

/-- Split a byte stream into the lines successively returned by
`reader.ReadBytes(0x0a)`, each including its terminator. -/
def splitLines (content : List Char) : List (List Char) := splitAux content []

/-- Run the per-line pipeline over a whole decoded byte stream. -/
def processContent (em ig : Addr → Bool) (st : ConcState)
    (content : List Char) : ConcState :=
  (splitLines content).foldl (stepLine em ig) st

/-- Helper of `extGo`, walking the reversed path: collect characters until
the final dot (returning the extension including the dot), a slash, or the
start of the string. -/
def extRevAux : List Char → List Char → List Char
  | [], _ => []
  | c :: rest, acc =>
    if c = '.' then '.' :: acc
    else if c = '/' then []
    else extRevAux rest (c :: acc)

/-- `filepath.Ext`: the suffix of the final path element starting at its
final dot, empty when there is none. -/
def extGo (name : List Char) : List Char := extRevAux name.reverse []

/-- One input file: its path and raw byte contents. -/
structure FileTask where
  name : List Char
  contents : List Char

/-- Decompression dispatch of `processFile`: when the extension is `.gz` the
byte stream is routed through the decompressing reader (modelled by the
`gunzip` parameter, since `compress/gzip` is an external library) before the
line-splitting pipeline; otherwise the raw bytes are line-split directly. -/
def processTask (em ig : Addr → Bool) (gunzip : List Char → List Char)
    (st : ConcState) (task : FileTask) : ConcState :=
  if extGo task.name = ".gz".toList then
    processContent em ig st (gunzip task.contents)
  else processContent em ig st task.contents

/-- The `writeLock`-protected critical section as one atomic action on the
shared pair (aggregation map, `fromCount`). -/
def recordCount (owner corr : Addr) (mfc : AggMap × Nat) : AggMap × Nat :=
  match lookupA owner mfc.1 with
  | some s => (updateA owner (insertSet corr s) mfc.1, mfc.2)
  | none => ((owner, [corr]) :: mfc.1, mfc.2 + 1)

/-- Interleaved execution of worker record actions: the trace lists which
worker runs its next `record`; worker `i`'s `k`-th action records
`(ow i, co k)` (its per-file order is preserved; `d` counts the actions each
worker has already performed).  Each action is atomic because the source
holds `writeLock` for the whole lookup-insert-count section. -/
def execTrace (ow co : Nat → Addr) :
    List Nat → (Nat → Nat) → AggMap × Nat → AggMap × Nat
  | [], _, mfc => mfc
  | i :: tr, d, mfc =>
    execTrace ow co tr (fun j => if j = i then d j + 1 else d j)
      (recordCount (ow i) (co (d i)) mfc)

/-- One hardware-level half of an unsynchronized `matchCount++`: a worker
first loads the shared counter into its own register, then stores back its
register plus one.  The source increments `lineCount`, `matchCount` and
`ignoreCount` outside the mutex, so the two halves of different workers may
interleave. -/
inductive CntAct where
  | load (i : Nat)
  | store (i : Nat)

/-- Execute a schedule of unsynchronized increment halves over the shared
counter `c`, with `regs i` the private register of worker `i`. -/
def runCnt : List CntAct → (Nat → Nat) → Nat → Nat
  | [], _, c => c
  | CntAct.load i :: tr, regs, c =>
    runCnt tr (fun j => if j = i then c else regs j) c
  | CntAct.store i :: tr, regs, _ => runCnt tr regs (regs i + 1)

/-- Inclusion predicate matching every address (e.g. the default concurrent
inclusion regex `.*`). -/
def emAll : Addr → Bool := fun _ => true

/-- Inclusion predicate matching no address. -/
def emNone : Addr → Bool := fun _ => false

/-- Exclusion predicate matching no nonempty address (the default exclusion
regex `^$`). -/
def igNone : Addr → Bool := fun _ => false

/-- Initial concurrent state: empty map, all counters zero. -/
def initConc : ConcState := ⟨[], 0, 0, 0, 0⟩

/-- Initial symmetric-variant state: empty map, all counters zero. -/
def initSym : SymState := ⟨[], 0, 0, 0⟩

/-- Growth order on the shared state: every owner present keeps an entry
whose correspondent set only gains members, the map never loses entries, and
every run counter is at least its old value. -/
def StateLe (st st2 : ConcState) : Prop :=
  (∀ o s, lookupA o st.emails = some s →
    ∃ s2, lookupA o st2.emails = some s2 ∧ s ⊆ s2) ∧
  st.emails.length ≤ st2.emails.length ∧
  st.lineCount ≤ st2.lineCount ∧
  st.matchCount ≤ st2.matchCount ∧
  st.ignoreCount ≤ st2.ignoreCount ∧
  st.fromCount ≤ st2.fromCount

/-- Number of workers below `N` that have already created their owner entry
(performed at least one record action). -/
def createdCount (N : Nat) (d : Nat → Nat) : Nat :=
  ((Finset.range N).filter (fun i => d i ≠ 0)).card

/-- Invariant of the interleaved execution: a worker that has performed `k`
record actions owns exactly the first `k` correspondents, the map holds one
entry per worker that has started, and `fromCount` equals the number of
created owner entries. -/
def TraceInv (N : Nat) (ow co : Nat → Addr) (d : Nat → Nat)
    (mfc : AggMap × Nat) : Prop :=
  (∀ i, i < N →
    lookupA (ow i) mfc.1 =
      if d i = 0 then none else some ((List.range (d i)).map co)) ∧
  mfc.1.length = createdCount N d ∧
  mfc.2 = createdCount N d

theorem stripLit_eq_some {l s r : List Char} :
    stripLit l s = some r ↔ s = l ++ r := by
  induction l generalizing s with
  | nil => simp [stripLit]
  | cons a as ih =>
    cases s with
    | nil => simp [stripLit]
    | cons b bs =>
      by_cases hab : a = b
      · subst hab
        simp [stripLit, ih]
      · constructor
        · intro h
          rw [stripLit, if_neg hab] at h
          cases h
        · intro h
          rw [List.cons_append] at h
          injection h with h1 h2
          exact absurd h1.symm hab

theorem mem_takeWhile_nonWS {c : Char} {l : List Char}
    (h : c ∈ l.takeWhile nonWS) : isWSGo c = false := by
  have := List.mem_takeWhile_imp h
  simpa [nonWS] using this

theorem dropWhile_head_cases (p : Char → Bool) (l : List Char) :
    l.dropWhile p = [] ∨
      ∃ d ds, l.dropWhile p = d :: ds ∧ p d = false := by
  induction l with
  | nil => exact Or.inl rfl
  | cons c cs ih =>
    by_cases hc : p c
    · simpa [List.dropWhile, hc] using ih
    · refine Or.inr ⟨c, cs, ?_, by simpa using hc⟩
      simp [List.dropWhile, hc]

theorem takeWhile_append_of_sat {p : Char → Bool} {u : List Char} {x : Char}
    {v : List Char} (hu : ∀ c ∈ u, p c = true) (hx : p x = false) :
    (u ++ x :: v).takeWhile p = u ∧ (u ++ x :: v).dropWhile p = x :: v := by
  induction u with
  | nil => simp [List.takeWhile, List.dropWhile, hx]
  | cons c cs ih =>
    have hc : p c = true := hu c (by simp)
    have ihh := ih (fun d hd => hu d (by simp [hd]))
    simp [List.takeWhile, List.dropWhile, hc, ihh.1, ihh.2]

theorem takeWhile_cons_ne_nil {p : Char → Bool} {c : Char} {l : List Char}
    (hc : p c = true) : (c :: l).takeWhile p ≠ [] := by
  simp [List.takeWhile, hc]

theorem dotStar_sound {α : Type} {k : List Char → Option α} {s : List Char}
    {r : α} (h : dotStar k s = some r) :
    ∃ u v, s = u ++ v ∧ (∀ c ∈ u, c ≠ '\n') ∧ k v = some r := by
  induction s with
  | nil => exact ⟨[], [], rfl, by simp, by simpa [dotStar] using h⟩
  | cons c cs ih =>
    rw [dotStar] at h
    by_cases hc : c = '\n'
    · subst hc
      simp at h
      exact ⟨[], '\n' :: cs, rfl, by simp, h⟩
    · simp only [hc, if_neg, ite_false] at h
      cases hd : dotStar k cs with
      | some r2 =>
        rw [hd] at h
        cases h
        obtain ⟨u, v, hs, hu, hk⟩ := ih hd
        exact ⟨c :: u, v, by simp [hs], by simpa [hc] using hu, hk⟩
      | none =>
        rw [hd] at h
        exact ⟨[], c :: cs, rfl, by simp, h⟩

theorem dotStar_complete {α : Type} {k : List Char → Option α} {u v : List Char}
    {r : α} (hu : ∀ c ∈ u, c ≠ '\n') (hk : k v = some r) :
    ∃ r2, dotStar k (u ++ v) = some r2 := by
  induction u with
  | nil =>
    cases v with
    | nil => exact ⟨r, by simpa [dotStar] using hk⟩
    | cons c cs =>
      rw [List.nil_append]
      by_cases hc : c = '\n'
      · subst hc
        refine ⟨r, ?_⟩
        rw [dotStar]
        simpa using hk
      · cases hd : dotStar k cs with
        | some r2 => exact ⟨r2, by rw [dotStar, if_neg hc, hd]⟩
        | none => exact ⟨r, by rw [dotStar, if_neg hc, hd]; exact hk⟩
  | cons c cs ih =>
    have hc : c ≠ '\n' := hu c (by simp)
    obtain ⟨r2, h2⟩ := ih (fun d hd => hu d (List.mem_cons_of_mem c hd))
    refine ⟨r2, ?_⟩
    rw [List.cons_append, dotStar, h2]
    simp [hc]

theorem dotPlus_sound {α : Type} {k : List Char → Option α} {s : List Char}
    {r : α} (h : dotPlus k s = some r) :
    ∃ u v, s = u ++ v ∧ u ≠ [] ∧ (∀ c ∈ u, c ≠ '\n') ∧ k v = some r := by
  cases s with
  | nil => simp [dotPlus] at h
  | cons c cs =>
    rw [dotPlus] at h
    by_cases hc : c = '\n'
    · simp [hc] at h
    · rw [if_neg hc] at h
      obtain ⟨u, v, hs, hu, hk⟩ := dotStar_sound h
      exact ⟨c :: u, v, by simp [hs], by simp, by simpa [hc] using hu, hk⟩

theorem dotPlus_complete {α : Type} {k : List Char → Option α} {u v : List Char}
    {r : α} (hne : u ≠ []) (hu : ∀ c ∈ u, c ≠ '\n') (hk : k v = some r) :
    ∃ r2, dotPlus k (u ++ v) = some r2 := by
  cases u with
  | nil => exact absurd rfl hne
  | cons c cs =>
    have hc : c ≠ '\n' := hu c (by simp)
    have hu2 : ∀ d ∈ cs, d ≠ '\n' := fun d hd => hu d (List.mem_cons_of_mem c hd)
    obtain ⟨r2, h2⟩ := dotStar_complete hu2 hk
    exact ⟨r2, by rw [List.cons_append, dotPlus, if_neg hc]; exact h2⟩

theorem k2_sound {v t : List Char} (h : k2 v = some t) :
    ∃ r4, v = mFor ++ r4 ∧ t = tokenOf r4 ∧ tokenOf r4 ≠ [] := by
  rw [k2] at h
  split at h
  · cases h
  · next r4 hstrip =>
    split at h
    · cases h
    · next htok =>
      injection h with h1
      exact ⟨r4, stripLit_eq_some.mp hstrip, h1.symm, htok⟩

theorem k1_sound {v f t : List Char} (h : k1 v = some (f, t)) :
    ∃ r1 r2, v = mLE ++ r1 ∧ f = tokenOf r1 ∧ tokenOf r1 ≠ [] ∧
      restOf r1 = ' ' :: r2 ∧ dotPlus k2 r2 = some t := by
  rw [k1] at h
  split at h
  · cases h
  · next r1 hstrip =>
    split at h
    · cases h
    · next htok =>
      split at h
      · cases h
      · next d r2 hrest =>
        split at h
        · next hd =>
          split at h
          · cases h
          · next t2 hdp =>
            injection h with h1
            rw [Prod.mk.injEq] at h1
            subst hd
            exact ⟨r1, r2, stripLit_eq_some.mp hstrip, h1.1.symm, htok, hrest,
              h1.2 ▸ hdp⟩
        · cases h

theorem k2_complete {t r2 : List Char} (htne : t ≠ [])
    (ht : ∀ c ∈ t, isWSGo c = false) :
    ∃ t2, k2 (mFor ++ (t ++ r2)) = some t2 := by
  have hstrip : stripLit mFor (mFor ++ (t ++ r2)) = some (t ++ r2) :=
    stripLit_eq_some.mpr rfl
  cases t with
  | nil => exact absurd rfl htne
  | cons c cs =>
    have hc : nonWS c = true := by simp [nonWS, ht c (by simp)]
    have hne : tokenOf (c :: cs ++ r2) ≠ [] := by
      rw [tokenOf, List.cons_append]
      exact takeWhile_cons_ne_nil hc
    refine ⟨tokenOf (c :: cs ++ r2), ?_⟩
    simp only [k2, hstrip, if_neg hne]

theorem k1_complete {f b t r2 : List Char}
    (hfne : f ≠ []) (hf : ∀ c ∈ f, isWSGo c = false)
    (hbne : b ≠ []) (hb : ∀ c ∈ b, c ≠ '\n')
    (htne : t ≠ []) (ht : ∀ c ∈ t, isWSGo c = false) :
    ∃ res, k1 (mLE ++ (f ++ ' ' :: (b ++ (mFor ++ (t ++ r2))))) = some res := by
  have hstrip :
      stripLit mLE (mLE ++ (f ++ ' ' :: (b ++ (mFor ++ (t ++ r2))))) =
        some (f ++ ' ' :: (b ++ (mFor ++ (t ++ r2)))) :=
    stripLit_eq_some.mpr rfl
  have hsat : ∀ c ∈ f, nonWS c = true := fun c hc => by simp [nonWS, hf c hc]
  have hsp : nonWS ' ' = false := by decide
  have htd :
      (f ++ ' ' :: (b ++ (mFor ++ (t ++ r2)))).takeWhile nonWS = f ∧
        (f ++ ' ' :: (b ++ (mFor ++ (t ++ r2)))).dropWhile nonWS =
          ' ' :: (b ++ (mFor ++ (t ++ r2))) :=
    takeWhile_append_of_sat hsat hsp
  have hTok : tokenOf (f ++ ' ' :: (b ++ (mFor ++ (t ++ r2)))) = f := htd.1
  have hRest : restOf (f ++ ' ' :: (b ++ (mFor ++ (t ++ r2)))) =
      ' ' :: (b ++ (mFor ++ (t ++ r2))) := htd.2
  obtain ⟨t2, hk2⟩ : ∃ t2, k2 (mFor ++ (t ++ r2)) = some t2 :=
    k2_complete htne ht
  obtain ⟨t3, hdp⟩ := dotPlus_complete hbne hb hk2
  refine ⟨(f, t3), ?_⟩
  simp only [k1, hstrip, hTok, if_neg hfne, hRest, hdp, if_true, eq_self_iff_true]

theorem matchHere_complete {s a f b t r2 : List Char}
    (hs : s = a ++ (mLE ++ (f ++ ' ' :: (b ++ (mFor ++ (t ++ r2))))))
    (hane : a ≠ []) (ha : ∀ c ∈ a, c ≠ '\n')
    (hfne : f ≠ []) (hf : ∀ c ∈ f, isWSGo c = false)
    (hbne : b ≠ []) (hb : ∀ c ∈ b, c ≠ '\n')
    (htne : t ≠ []) (ht : ∀ c ∈ t, isWSGo c = false) :
    ∃ res, matchHere s = some res := by
  subst hs
  obtain ⟨res, hk1⟩ :
      ∃ res, k1 (mLE ++ (f ++ ' ' :: (b ++ (mFor ++ (t ++ r2))))) = some res :=
    k1_complete hfne hf hbne hb htne ht
  exact dotPlus_complete hane ha hk1

theorem matchHere_sound {s f t : List Char} (h : matchHere s = some (f, t)) :
    PatternMatches s ∧ TokenAfterMarker mLE s f ∧ TokenAfterMarker mFor s t := by
  obtain ⟨a, v, hs, hane, hanl, hk1⟩ := dotPlus_sound h
  obtain ⟨r1, r2, hv, hf, hfne, hrest, hdp⟩ := k1_sound hk1
  obtain ⟨b, w, hr2, hbne, hbnl, hk2⟩ := dotPlus_sound hdp
  obtain ⟨r4, hw, ht, htne⟩ := k2_sound hk2
  have hfne2 : f ≠ [] := by rw [hf]; exact hfne
  have hfns : ∀ c ∈ f, isWSGo c = false := by
    intro c hc
    rw [hf, tokenOf] at hc
    exact mem_takeWhile_nonWS hc
  have htne2 : t ≠ [] := by rw [ht]; exact htne
  have htns : ∀ c ∈ t, isWSGo c = false := by
    intro c hc
    rw [ht, tokenOf] at hc
    exact mem_takeWhile_nonWS hc
  have hr1 : r1 = f ++ ' ' :: r2 := by
    have h0 : tokenOf r1 ++ restOf r1 = r1 :=
      List.takeWhile_append_dropWhile nonWS r1
    rw [hrest, ← hf] at h0
    exact h0.symm
  have hr4full : r4 = t ++ restOf r4 := by
    have h0 : tokenOf r4 ++ restOf r4 = r4 :=
      List.takeWhile_append_dropWhile nonWS r4
    rw [← ht] at h0
    exact h0.symm
  have hpost : restOf r4 = [] ∨ ∃ d ds, restOf r4 = d :: ds ∧ isWSGo d = true := by
    rcases dropWhile_head_cases nonWS r4 with h0 | ⟨d, ds, h0, hd⟩
    · exact Or.inl h0
    · refine Or.inr ⟨d, ds, h0, ?_⟩
      simpa [nonWS] using hd
  obtain ⟨rest4, hr4, hpost4⟩ :
      ∃ q, r4 = t ++ q ∧ (q = [] ∨ ∃ d ds, q = d :: ds ∧ isWSGo d = true) :=
    ⟨restOf r4, hr4full, hpost⟩
  subst hr4 hw hr2 hr1 hv hs
  refine ⟨⟨[], a, f, b, t, rest4, ?_, hane, hanl, hfne2, hfns, hbne, hbnl,
    htne2, htns⟩, ⟨hfne2, hfns, a, ' ' :: (b ++ (mFor ++ (t ++ rest4))), ?_,
      Or.inr ⟨' ', b ++ (mFor ++ (t ++ rest4)), rfl, by decide⟩⟩,
    ⟨htne2, htns, a ++ mLE ++ f ++ ' ' :: b, rest4, ?_, hpost4⟩⟩
  · simp
  · simp
  · simp

theorem patternMatches_cons {s : List Char} (c : Char) (h : PatternMatches s) :
    PatternMatches (c :: s) := by
  obtain ⟨p, a, f, b, t, r, hs, rest⟩ := h
  refine ⟨c :: p, a, f, b, t, r, ?_, rest⟩
  rw [hs]
  simp

theorem tokenAfterMarker_cons {m s tok : List Char} (c : Char)
    (h : TokenAfterMarker m s tok) : TokenAfterMarker m (c :: s) tok := by
  obtain ⟨hne, hnw, pre, post, hs, hpost⟩ := h
  refine ⟨hne, hnw, c :: pre, post, ?_, hpost⟩
  rw [hs]
  simp

theorem findSubmatch_sound {s f t : List Char}
    (h : findSubmatch s = some (f, t)) :
    PatternMatches s ∧ TokenAfterMarker mLE s f ∧ TokenAfterMarker mFor s t := by
  induction s with
  | nil =>
    rw [findSubmatch] at h
    simp [matchHere, dotPlus] at h
  | cons c cs ih =>
    rw [findSubmatch] at h
    cases hm : matchHere (c :: cs) with
    | some r =>
      rw [hm] at h
      simp at h
      subst h
      exact matchHere_sound hm
    | none =>
      rw [hm] at h
      simp at h
      obtain ⟨h1, h2, h3⟩ := ih h
      exact ⟨patternMatches_cons c h1, tokenAfterMarker_cons c h2,
        tokenAfterMarker_cons c h3⟩

theorem findSubmatch_append_isSome (p : List Char) {s : List Char}
    (h : ∃ r, matchHere s = some r) :
    ∃ r, findSubmatch (p ++ s) = some r := by
  induction p with
  | nil =>
    obtain ⟨r, hr⟩ := h
    cases s with
    | nil => exact ⟨r, by rw [List.nil_append, findSubmatch]; exact hr⟩
    | cons c cs =>
      refine ⟨r, ?_⟩
      rw [List.nil_append, findSubmatch, hr]
  | cons c p2 ih =>
    obtain ⟨r2, hr2⟩ := ih
    rw [List.cons_append]
    cases hm : matchHere (c :: (p2 ++ s)) with
    | some r3 => exact ⟨r3, by rw [findSubmatch, hm]⟩
    | none =>
      refine ⟨r2, ?_⟩
      rw [findSubmatch, hm]
      exact hr2

/-- C1: for every line matching the fixed delivery-record pattern, the parser
yields a pair whose first component is exactly the whitespace-delimited token
immediately following the ` <= ` marker and whose second component is exactly
the whitespace-delimited token immediately following the ` for ` marker; a
line not matching the pattern yields no pair (`findSubmatch` is `none`
exactly when no decomposition realises the pattern). -/
theorem lineParser_extracts_marker_tokens (s : List Char) :
    (∀ f t, findSubmatch s = some (f, t) →
      TokenAfterMarker mLE s f ∧ TokenAfterMarker mFor s t) ∧
    (PatternMatches s ↔ ∃ ft, findSubmatch s = some ft) := by
  constructor
  · intro f t h
    exact ⟨(findSubmatch_sound h).2.1, (findSubmatch_sound h).2.2⟩
  · constructor
    · intro h
      obtain ⟨p, a, f, b, t, r, hs, hane, hanl, hfne, hf, hbne, hb, htne, ht⟩ := h
      have hs2 : s = p ++ (a ++ (mLE ++ (f ++ ' ' :: (b ++ (mFor ++ (t ++ r)))))) := by
        rw [hs]
        simp
      obtain ⟨res, hres⟩ :=
        matchHere_complete rfl hane hanl hfne hf hbne hb htne ht
      obtain ⟨r2, hr2⟩ := findSubmatch_append_isSome p ⟨res, hres⟩
      rw [hs2]
      exact ⟨r2, hr2⟩
    · rintro ⟨⟨f, t⟩, hft⟩
      exact (findSubmatch_sound hft).1

/-- Witness for C1 at the specification's round-trip example line. -/
theorem lineParser_extracts_marker_tokens_witness :
    (TokenAfterMarker mLE exLine exFrom ∧ TokenAfterMarker mFor exLine exTo) ∧
    (∃ ft, findSubmatch exLine = some ft) :=
  ⟨(lineParser_extracts_marker_tokens exLine).1 exFrom exTo (by decide),
   (lineParser_extracts_marker_tokens exLine).2.mp
     ⟨[], "2024-01-01 10:00:00".toList, exFrom, "H=mail".toList, exTo,
      ['\n'], by decide, by decide, by decide, by decide, by decide, by decide,
      by decide, by decide, by decide⟩⟩

theorem lookupA_updateA_self (k : Addr) (v : List Addr) (m : AggMap) :
    lookupA k (updateA k v m) =
      match lookupA k m with
      | some _ => some v
      | none => none := by
  induction m with
  | nil => simp [lookupA, updateA]
  | cons e m ih =>
    obtain ⟨k2, v2⟩ := e
    by_cases hk : k2 = k
    · simp [lookupA, updateA, hk]
    · simp [lookupA, updateA, hk, ih]

theorem lookupA_updateA_ne {k k2 : Addr} (v : List Addr) (m : AggMap)
    (h : k2 ≠ k) : lookupA k2 (updateA k v m) = lookupA k2 m := by
  induction m with
  | nil => simp [lookupA, updateA]
  | cons e m ih =>
    obtain ⟨k3, v3⟩ := e
    by_cases hk : k3 = k
    · subst hk
      have hne : ¬ (k3 = k2) := fun h2 => h h2.symm
      simp [lookupA, updateA, hne]
    · simp [lookupA, updateA, hk, ih]

theorem length_updateA (k : Addr) (v : List Addr) (m : AggMap) :
    (updateA k v m).length = m.length := by
  induction m with
  | nil => rfl
  | cons e m ih =>
    obtain ⟨k2, v2⟩ := e
    by_cases hk : k2 = k
    · simp [updateA, hk]
    · simp [updateA, hk, ih]

theorem lookupA_record (owner corr o : Addr) (m : AggMap) :
    lookupA o (record owner corr m) =
      if owner = o then some (insertSet corr (getSet owner m))
      else lookupA o m := by
  rw [record]
  cases hl : lookupA owner m with
  | some s =>
    by_cases ho : owner = o
    · subst ho
      rw [if_pos rfl, lookupA_updateA_self, hl, getSet, hl]
      rfl
    · rw [if_neg ho, lookupA_updateA_ne _ _ (fun h => ho h.symm)]
  | none =>
    by_cases ho : owner = o
    · subst ho
      simp [lookupA, getSet, hl, insertSet]
    · simp [lookupA, ho]

theorem getSet_record_self (owner corr : Addr) (m : AggMap) :
    getSet owner (record owner corr m) = insertSet corr (getSet owner m) := by
  rw [getSet, lookupA_record, if_pos rfl]
  rfl

theorem insertSet_mem (x : Addr) (s : List Addr) : x ∈ insertSet x s := by
  rw [insertSet]
  by_cases h : x ∈ s
  · simp [h]
  · simp [h]

theorem insertSet_of_mem {x : Addr} {s : List Addr} (h : x ∈ s) :
    insertSet x s = s := by
  simp [insertSet, h]

/-- C3: recording the same (owner, correspondent) pair twice leaves the
owner's correspondent set with the same size as after the first call, for
every prior aggregator state: the second `val[corr] = true` hits a key that
is already present. -/
theorem record_idempotent_size (owner corr : Addr) (m : AggMap) :
    (getSet owner (record owner corr (record owner corr m))).length =
      (getSet owner (record owner corr m)).length := by
  rw [getSet_record_self, getSet_record_self,
    insertSet_of_mem (insertSet_mem corr (getSet owner m))]

theorem toNat_ofNat_valid {n : Nat} (h : n.isValidChar) :
    (Char.ofNat n).toNat = n := by
  rw [Char.ofNat, dif_pos h]
  rfl

/-- C10: the hand-rolled case folding of the concurrent variant maps exactly
the ASCII letters `A` through `Z` to the code point 32 higher (their
lowercase form) and returns every other rune unchanged, so non-ASCII
uppercase letters are not normalized. -/
theorem toLower_ascii_only (r : Char) :
    (('A' ≤ r ∧ r ≤ 'Z') → (toLower r).toNat = r.toNat + 32) ∧
    (¬ ('A' ≤ r ∧ r ≤ 'Z') → toLower r = r) := by
  constructor
  · intro h
    have h90 : r.toNat ≤ 90 := h.2
    rw [toLower, if_pos h]
    exact toNat_ofNat_valid (Or.inl (by omega))
  · intro h
    rw [toLower, if_neg h]

/-- Witness for C10: `A` is folded to code point 97 (`a`) while the
non-ASCII uppercase `Ä` is left unchanged. -/
theorem toLower_ascii_only_witness :
    (toLower 'A').toNat = 'A'.toNat + 32 ∧ toLower 'Ä' = 'Ä' :=
  ⟨(toLower_ascii_only 'A').1 (by decide),
   (toLower_ascii_only 'Ä').2 (by decide)⟩

theorem recordSt_emails (o c : Addr) (st : ConcState) :
    (recordSt o c st).emails = record o c st.emails := by
  cases hl : lookupA o st.emails <;> simp [recordSt, record, hl]

theorem recordSt_counts (o c : Addr) (st : ConcState) :
    (recordSt o c st).matchCount = st.matchCount ∧
    (recordSt o c st).ignoreCount = st.ignoreCount ∧
    (recordSt o c st).lineCount = st.lineCount := by
  cases hl : lookupA o st.emails <;> simp [recordSt, hl]

/-- C2: sender-anchored classification of a parsed pair `(from, to)`: if
`from` does not match the inclusion pattern the pair is discarded and the
ignored count incremented; otherwise if `to` matches the exclusion pattern
the pair is discarded and the ignored count incremented; otherwise both
addresses are case-folded and `(owner = from, correspondent = to)` is
recorded in the aggregation map (and the pair counted as matched). -/
theorem classifier_sender_anchored (em ig : Addr → Bool) (f t : Addr)
    (st : ConcState) :
    (em f = false →
      processMatched em ig f t st =
        { st with ignoreCount := st.ignoreCount + 1 }) ∧
    (em f = true → ig t = true →
      processMatched em ig f t st =
        { st with ignoreCount := st.ignoreCount + 1 }) ∧
    (em f = true → ig t = false →
      (processMatched em ig f t st).emails =
          record (lowerAddr f) (lowerAddr t) st.emails ∧
        (processMatched em ig f t st).ignoreCount = st.ignoreCount ∧
        (processMatched em ig f t st).matchCount = st.matchCount + 1) := by
  refine ⟨?_, ?_, ?_⟩
  · intro h
    rw [processMatched, if_pos h]
  · intro h1 h2
    rw [processMatched, if_neg (by simp [h1]), if_pos h2]
  · intro h1 h2
    cases hl : lookupA (lowerAddr f) st.emails <;>
      simp [processMatched, h1, h2, recordSt, record, hl]

/-- Witness for C2: with an inclusion pattern rejecting everything the pair
is ignored; with the match-all inclusion and match-nothing exclusion the
pair is recorded under the folded sender. -/
theorem classifier_sender_anchored_witness :
    processMatched emNone igNone (['a']) (['b']) initConc =
      { initConc with ignoreCount := initConc.ignoreCount + 1 } ∧
    ((processMatched emAll igNone (['a']) (['b']) initConc).emails =
        record (lowerAddr ['a']) (lowerAddr ['b']) initConc.emails ∧
      (processMatched emAll igNone (['a']) (['b']) initConc).ignoreCount =
        initConc.ignoreCount ∧
      (processMatched emAll igNone (['a']) (['b']) initConc).matchCount =
        initConc.matchCount + 1) :=
  ⟨(classifier_sender_anchored emNone igNone ['a'] ['b'] initConc).1
      (by decide),
   (classifier_sender_anchored emAll igNone ['a'] ['b'] initConc).2.2
      (by decide) (by decide)⟩

/-- Counterexample for C9: in the symmetric mode with an inclusion pattern
matching neither address, the processed pair is aggregated under the second
capture (the token after ` for `), not under the first regex group: the
first-group token `a` owns no entry afterwards while the second-group token
`b` owns the set containing `a`. -/
theorem symmetric_owner_is_second_group_cex :
    emNone ['a'] = false ∧ emNone ['b'] = false ∧
    (processMatchedSym emNone (['a']) (['b']) initSym).matchCount = 1 ∧
    lookupA (['a']) (processMatchedSym emNone (['a']) (['b']) initSym).emails =
      none ∧
    lookupA (['b']) (processMatchedSym emNone (['a']) (['b']) initSym).emails =
      some [['a']] := by decide

/-- C9 amended: in the symmetric mode a parsed pair in which neither address
matches the inclusion pattern is not discarded: it is counted as matched and
aggregated with the token extracted by the second regex group (the token
after ` for `, bound to the code variable `from`) as the owner and the
first-group token as the correspondent. -/
theorem symmetric_neither_match_keeps_pair (em : Addr → Bool) (g1 g2 : Addr)
    (st : SymState) (h1 : em g1 = false) (_h2 : em g2 = false) :
    processMatchedSym em g1 g2 st =
      { st with
        emails := record g2 g1 st.emails
        matchCount := st.matchCount + 1
        lineCount := st.lineCount + 1 } := by
  rw [processMatchedSym, if_neg (by simp [h1]), if_neg (by simp [h1])]

/-- Witness for C9 at a concrete rejected pair. -/
theorem symmetric_neither_match_keeps_pair_witness :
    processMatchedSym emNone (['a']) (['b']) initSym =
      { initSym with
        emails := record ['b'] ['a'] initSym.emails
        matchCount := initSym.matchCount + 1
        lineCount := initSym.lineCount + 1 } :=
  symmetric_neither_match_keeps_pair emNone ['a'] ['b'] initSym (by decide)
    (by decide)

/-- Counterexample for C6: in the sender-anchored mode a pair in which both
addresses match the inclusion pattern is not discarded when the recipient
misses the exclusion pattern: with the match-all inclusion and the default
match-nothing exclusion, the pair `(a, b)` is recorded, counted as matched,
and the ignored count stays zero. -/
theorem both_inclusion_not_discarded_cex :
    emAll ['a'] = true ∧ emAll ['b'] = true ∧
    (processMatched emAll igNone (['a']) (['b']) initConc).ignoreCount = 0 ∧
    (processMatched emAll igNone (['a']) (['b']) initConc).emails =
      [(['a'], [['b']])] ∧
    (processMatched emAll igNone (['a']) (['b']) initConc).matchCount = 1 := by
  decide

/-- C6 amended: a pair in which both addresses match the inclusion pattern is
discarded in the symmetric mode; in the sender-anchored mode such a pair is
discarded exactly when the recipient also matches the exclusion pattern. -/
theorem both_inclusion_discard_modes (em ig : Addr → Bool) (g1 g2 : Addr)
    (stS : SymState) (stC : ConcState) (h1 : em g1 = true)
    (h2 : em g2 = true) :
    processMatchedSym em g1 g2 stS =
      { stS with ignoreCount := stS.ignoreCount + 1 } ∧
    (ig g2 = true →
      processMatched em ig g1 g2 stC =
        { stC with ignoreCount := stC.ignoreCount + 1 }) ∧
    (ig g2 = false →
      (processMatched em ig g1 g2 stC).ignoreCount = stC.ignoreCount) := by
  refine ⟨?_, ?_, ?_⟩
  · rw [processMatchedSym, if_pos (by simp [h1, h2])]
  · intro h3
    rw [processMatched, if_neg (by simp [h1]), if_pos h3]
  · intro h3
    cases hl : lookupA (lowerAddr g1) stC.emails <;>
      simp [processMatched, h1, h3, recordSt, hl]

/-- Witness for the amended C6 at a concrete both-matching pair. -/
theorem both_inclusion_discard_modes_witness :
    (processMatchedSym emAll (['a']) (['b']) initSym =
      { initSym with ignoreCount := initSym.ignoreCount + 1 }) ∧
    ((igNone ['b'] = true →
      processMatched emAll igNone (['a']) (['b']) initConc =
        { initConc with ignoreCount := initConc.ignoreCount + 1 }) ∧
    (igNone ['b'] = false →
      (processMatched emAll igNone (['a']) (['b']) initConc).ignoreCount =
        initConc.ignoreCount)) :=
  ⟨(both_inclusion_discard_modes emAll igNone ['a'] ['b'] initSym initConc
      (by decide) (by decide)).1,
   (both_inclusion_discard_modes emAll igNone ['a'] ['b'] initSym initConc
      (by decide) (by decide)).2⟩

theorem runFiles_append (em ig : Addr → Bool) (st : ConcState)
    (fs1 fs2 : List (List ReadEvent)) :
    runFiles em ig st (fs1 ++ fs2) =
      runFiles em ig (runFiles em ig st fs1) fs2 := by
  induction fs1 generalizing st with
  | nil => rfl
  | cons f fs ih => simp [runFiles, ih]

theorem processEvents_error_prefix (em ig : Addr → Bool) (st : ConcState)
    (pre : List (List Char)) (post : List ReadEvent) :
    processEvents em ig st
        (pre.map ReadEvent.line ++ ReadEvent.readErr :: post) =
      processEvents em ig st (pre.map ReadEvent.line) := by
  induction pre generalizing st with
  | nil => rfl
  | cons l pre ih => simp [processEvents, ih]

/-- C5: when a worker hits a non-EOF read error (including a failed
decompressing read), it abandons the remainder of that file only: the
erroring file contributes exactly the lines read before the error, the
events after the error are never processed, the per-file loop terminates,
and every other file (before and after) is still processed on the shared
state — the run continues. -/
theorem read_error_abandons_file_only (em ig : Addr → Bool) (st : ConcState)
    (fs1 fs2 : List (List ReadEvent)) (pre : List (List Char))
    (post : List ReadEvent) :
    runFiles em ig st
        (fs1 ++ (pre.map ReadEvent.line ++ ReadEvent.readErr :: post) :: fs2) =
      runFiles em ig
        (processEvents em ig (runFiles em ig st fs1) (pre.map ReadEvent.line))
        fs2 := by
  rw [runFiles_append, runFiles, processEvents_error_prefix]

/-- C7: processing gzip-compressed bytes from a `.gz`-named file yields
exactly the state produced by processing the plain content: the gzip branch
only routes the bytes through the decompressing reader and then runs the
identical per-line pipeline. -/
theorem gzip_path_equals_plain_path (em ig : Addr → Bool)
    (gz gunzip : List Char → List Char) (content : List Char)
    (st : ConcState) (gzName plainName : List Char)
    (hround : gunzip (gz content) = content)
    (hgz : extGo gzName = ".gz".toList)
    (hplain : extGo plainName ≠ ".gz".toList) :
    processTask em ig gunzip st ⟨gzName, gz content⟩ =
      processTask em ig gunzip st ⟨plainName, content⟩ := by
  rw [processTask, processTask, if_pos hgz, if_neg hplain, hround]

/-- Witness for C7 with the identity as the compressor pair and the example
line as content. -/
theorem gzip_path_equals_plain_path_witness :
    processTask emAll igNone (fun l => l) initConc
        ⟨"x.gz".toList, (fun l => l) exLine⟩ =
      processTask emAll igNone (fun l => l) initConc ⟨"x.log".toList, exLine⟩ :=
  gzip_path_equals_plain_path emAll igNone (fun l => l) (fun l => l) exLine
    initConc ("x.gz".toList) ("x.log".toList) rfl (by decide) (by decide)

theorem insertSet_subset (x : Addr) (s : List Addr) : s ⊆ insertSet x s := by
  rw [insertSet]
  by_cases h : x ∈ s
  · simp [h]
  · rw [if_neg h]
    exact List.subset_append_left s [x]

theorem length_record_ge (o c : Addr) (m : AggMap) :
    m.length ≤ (record o c m).length := by
  cases hl : lookupA o m <;> simp [record, hl, length_updateA]

theorem lookupA_record_mono {o2 : Addr} {m : AggMap} {s : List Addr}
    (o c : Addr) (h : lookupA o2 m = some s) :
    ∃ s2, lookupA o2 (record o c m) = some s2 ∧ s ⊆ s2 := by
  rw [lookupA_record]
  by_cases ho : o = o2
  · subst ho
    refine ⟨insertSet c (getSet o m), by rw [if_pos rfl], ?_⟩
    rw [getSet, h]
    exact insertSet_subset c s
  · exact ⟨s, by rw [if_neg ho, h], List.Subset.refl s⟩

theorem stateLe_refl (st : ConcState) : StateLe st st :=
  ⟨fun _ s h => ⟨s, h, List.Subset.refl s⟩, Nat.le_refl _, Nat.le_refl _,
    Nat.le_refl _, Nat.le_refl _, Nat.le_refl _⟩

theorem stateLe_trans {a b c : ConcState} (h1 : StateLe a b)
    (h2 : StateLe b c) : StateLe a c := by
  obtain ⟨m1, l1, c1, c2, c3, c4⟩ := h1
  obtain ⟨m2, l2, d1, d2, d3, d4⟩ := h2
  refine ⟨?_, Nat.le_trans l1 l2, Nat.le_trans c1 d1, Nat.le_trans c2 d2,
    Nat.le_trans c3 d3, Nat.le_trans c4 d4⟩
  intro o s h
  obtain ⟨s2, hs2, hsub⟩ := m1 o s h
  obtain ⟨s3, hs3, hsub2⟩ := m2 o s2 hs2
  exact ⟨s3, hs3, List.Subset.trans hsub hsub2⟩

theorem recordSt_stateLe (o c : Addr) (st : ConcState) :
    StateLe st (recordSt o c st) := by
  refine ⟨?_, ?_, ?_, ?_, ?_, ?_⟩
  · intro o2 s h
    rw [recordSt_emails]
    exact lookupA_record_mono o c h
  · rw [recordSt_emails]
    exact length_record_ge o c st.emails
  · rw [(recordSt_counts o c st).2.2]
  · rw [(recordSt_counts o c st).1]
  · rw [(recordSt_counts o c st).2.1]
  · cases hl : lookupA o st.emails <;> simp [recordSt, hl]

theorem processMatched_stateLe (em ig : Addr → Bool) (f t : Addr)
    (st : ConcState) : StateLe st (processMatched em ig f t st) := by
  rw [processMatched]
  by_cases h1 : em f = false
  · rw [if_pos h1]
    exact ⟨fun _ s h => ⟨s, h, List.Subset.refl s⟩, Nat.le_refl _,
      Nat.le_refl _, Nat.le_refl _, Nat.le_succ _, Nat.le_refl _⟩
  · rw [if_neg h1]
    by_cases h2 : ig t = true
    · rw [if_pos h2]
      exact ⟨fun _ s h => ⟨s, h, List.Subset.refl s⟩, Nat.le_refl _,
        Nat.le_refl _, Nat.le_refl _, Nat.le_succ _, Nat.le_refl _⟩
    · rw [if_neg h2]
      have hrec := recordSt_stateLe (lowerAddr f) (lowerAddr t) st
      obtain ⟨m1, l1, c1, c2, c3, c4⟩ := hrec
      exact ⟨m1, l1, Nat.le_trans c1 (Nat.le_succ _),
        Nat.le_trans c2 (Nat.le_succ _), c3, c4⟩

theorem stepLine_stateLe (em ig : Addr → Bool) (st : ConcState)
    (line : List Char) : StateLe st (stepLine em ig st line) := by
  rw [stepLine]
  cases findSubmatch line with
  | some ft =>
    obtain ⟨f, t⟩ := ft
    exact processMatched_stateLe em ig f t st
  | none =>
    exact ⟨fun _ s h => ⟨s, h, List.Subset.refl s⟩, Nat.le_refl _,
      Nat.le_succ _, Nat.le_refl _, Nat.le_refl _, Nat.le_refl _⟩

theorem foldl_stepLine_stateLe (em ig : Addr → Bool)
    (lines : List (List Char)) (st : ConcState) :
    StateLe st (lines.foldl (stepLine em ig) st) := by
  induction lines generalizing st with
  | nil => exact stateLe_refl st
  | cons l ls ih =>
    rw [List.foldl_cons]
    exact stateLe_trans (stepLine_stateLe em ig st l) (ih (stepLine em ig st l))

/-- C8: over any sequence of processed lines the aggregation map only grows:
no owner entry is ever removed, each present owner's correspondent set stays
a superset of its previous value, the number of entries never shrinks, and
each of the four run counters never decreases. -/
theorem aggregation_map_only_grows (em ig : Addr → Bool)
    (lines : List (List Char)) (st : ConcState) :
    (∀ o s, lookupA o st.emails = some s →
      ∃ s2, lookupA o (lines.foldl (stepLine em ig) st).emails = some s2 ∧
        s ⊆ s2) ∧
    st.emails.length ≤ (lines.foldl (stepLine em ig) st).emails.length ∧
    st.lineCount ≤ (lines.foldl (stepLine em ig) st).lineCount ∧
    st.matchCount ≤ (lines.foldl (stepLine em ig) st).matchCount ∧
    st.ignoreCount ≤ (lines.foldl (stepLine em ig) st).ignoreCount ∧
    st.fromCount ≤ (lines.foldl (stepLine em ig) st).fromCount :=
  foldl_stepLine_stateLe em ig lines st

/-- Witness for C8: an owner present before a processed line keeps a
superset entry afterwards. -/
theorem aggregation_map_only_grows_witness :
    ∃ s2,
      lookupA ['a']
          (([exLine].foldl (stepLine emAll igNone)
            ⟨[(['a'], [['b']])], 0, 0, 0, 0⟩).emails) = some s2 ∧
        [['b']] ⊆ s2 :=
  (aggregation_map_only_grows emAll igNone [exLine]
      ⟨[(['a'], [['b']])], 0, 0, 0, 0⟩).1 ['a'] [['b']] (by decide)

theorem createdCount_update_zero {N : Nat} {d : Nat → Nat} {i : Nat}
    (hiN : i < N) (h0 : d i = 0) :
    createdCount N (fun j => if j = i then d j + 1 else d j) =
      createdCount N d + 1 := by
  rw [createdCount, createdCount]
  have hset :
      (Finset.range N).filter
          (fun j => (if j = i then d j + 1 else d j) ≠ 0) =
        insert i ((Finset.range N).filter (fun j => d j ≠ 0)) := by
    ext j
    by_cases hji : j = i
    · subst hji
      simp [hiN]
    · simp [hji]
  have hnot : i ∉ (Finset.range N).filter (fun j => d j ≠ 0) := by
    simp [h0]
  rw [hset, Finset.card_insert_of_not_mem hnot]

theorem createdCount_update_pos {N : Nat} {d : Nat → Nat} {i : Nat}
    (h0 : d i ≠ 0) :
    createdCount N (fun j => if j = i then d j + 1 else d j) =
      createdCount N d := by
  rw [createdCount, createdCount]
  congr 1
  ext j
  by_cases hji : j = i
  · subst hji
    simp [h0]
  · simp [hji]

theorem recordCount_inv {N T : Nat} {ow co : Nat → Addr}
    (how : ∀ i j, i < N → j < N → ow i = ow j → i = j)
    (hco : ∀ a b, a < T → b < T → co a = co b → a = b)
    {i : Nat} (hiN : i < N) {d : Nat → Nat} (hdi : d i < T)
    {mfc : AggMap × Nat} (hinv : TraceInv N ow co d mfc) :
    TraceInv N ow co (fun j => if j = i then d j + 1 else d j)
      (recordCount (ow i) (co (d i)) mfc) := by
  obtain ⟨hlook, hlen, hfc⟩ := hinv
  by_cases hd0 : d i = 0
  · have hnone : lookupA (ow i) mfc.1 = none := by
      rw [hlook i hiN, if_pos hd0]
    have hrc : recordCount (ow i) (co (d i)) mfc =
        ((ow i, [co (d i)]) :: mfc.1, mfc.2 + 1) := by
      rw [recordCount, hnone]
    rw [hrc]
    refine ⟨?_, ?_, ?_⟩
    · intro i2 hi2
      by_cases hii : i2 = i
      · subst hii
        simp [lookupA, hd0, List.range_succ]
      · have hown : ow i2 ≠ ow i := fun h => hii (how i2 i hi2 hiN h)
        simp only [lookupA]
        rw [if_neg (fun h => hown h.symm), hlook i2 hi2]
        simp [hii]
    · simp only [List.length_cons, hlen]
      rw [createdCount_update_zero hiN hd0]
    · simp only [hfc]
      rw [createdCount_update_zero hiN hd0]
  · have hsome : lookupA (ow i) mfc.1 = some ((List.range (d i)).map co) := by
      rw [hlook i hiN, if_neg hd0]
    have hnotmem : co (d i) ∉ (List.range (d i)).map co := by
      intro hmem
      obtain ⟨j, hj, hje⟩ := List.mem_map.mp hmem
      have hjlt : j < d i := List.mem_range.mp hj
      have := hco j (d i) (by omega) hdi hje
      omega
    have hins : insertSet (co (d i)) ((List.range (d i)).map co) =
        (List.range (d i + 1)).map co := by
      rw [insertSet, if_neg hnotmem, List.range_succ, List.map_append]
      rfl
    have hrc : recordCount (ow i) (co (d i)) mfc =
        (updateA (ow i) ((List.range (d i + 1)).map co) mfc.1, mfc.2) := by
      rw [recordCount, hsome]
      simp only [hins]
    rw [hrc]
    refine ⟨?_, ?_, ?_⟩
    · intro i2 hi2
      by_cases hii : i2 = i
      · subst hii
        rw [lookupA_updateA_self, hsome]
        simp
      · have hown : ow i2 ≠ ow i := fun h => hii (how i2 i hi2 hiN h)
        rw [lookupA_updateA_ne _ _ hown, hlook i2 hi2]
        simp [hii]
    · simp only [length_updateA, hlen]
      rw [createdCount_update_pos hd0]
    · simp only [hfc]
      rw [createdCount_update_pos hd0]

theorem execTrace_inv (N T : Nat) (ow co : Nat → Addr)
    (how : ∀ i j, i < N → j < N → ow i = ow j → i = j)
    (hco : ∀ a b, a < T → b < T → co a = co b → a = b)
    (tr : List Nat) :
    ∀ (d : Nat → Nat) (mfc : AggMap × Nat),
      (∀ j ∈ tr, j < N) → (∀ j, d j + tr.count j ≤ T) →
      TraceInv N ow co d mfc →
      TraceInv N ow co (fun j => d j + tr.count j)
        (execTrace ow co tr d mfc) := by
  induction tr with
  | nil =>
    intro d mfc _ _ hinv
    have hfun : (fun j => d j + List.count j ([] : List Nat)) = d := by
      funext j
      simp
    rw [execTrace, hfun]
    exact hinv
  | cons i tr ih =>
    intro d mfc htr hbound hinv
    have hiN : i < N := htr i (by simp)
    have hdi : d i < T := by
      have hb := hbound i
      rw [List.count_cons_self] at hb
      omega
    have hbound2 :
        ∀ j, (if j = i then d j + 1 else d j) + tr.count j ≤ T := by
      intro j
      by_cases hji : j = i
      · subst hji
        rw [if_pos rfl]
        have hb := hbound j
        rw [List.count_cons_self] at hb
        omega
      · rw [if_neg hji]
        have hb := hbound j
        rw [List.count_cons_of_ne hji] at hb
        exact hb
    have hstep := recordCount_inv how hco hiN hdi hinv
    have hmain := ih (fun j => if j = i then d j + 1 else d j)
      (recordCount (ow i) (co (d i)) mfc)
      (fun j hj => htr j (List.mem_cons_of_mem i hj)) hbound2 hstep
    have hfun : (fun j => (if j = i then d j + 1 else d j) + tr.count j) =
        (fun j => d j + (i :: tr).count j) := by
      funext j
      by_cases hji : j = i
      · subst hji
        rw [if_pos rfl, List.count_cons_self]
        omega
      · rw [if_neg hji, List.count_cons_of_ne hji]
    rw [execTrace]
    rw [hfun] at hmain
    exact hmain

/-- C4 amended: under every scheduling interleaving, `N` workers each
performing `T` lock-protected record actions with pairwise disjoint owners
and distinct correspondents leave the aggregation map with exactly `N`
owner entries, each holding exactly the `T` correspondents in insertion
order, and the lock-protected distinct-owner counter (`fromCount`) equals
`N`: no map update and no owner-count update is lost.  (The remaining
counters are incremented outside the lock; see the counterexample.) -/
theorem conc_record_no_lost_map_updates (N T : Nat) (ow co : Nat → Addr)
    (tr : List Nat)
    (how : ∀ i j, i < N → j < N → ow i = ow j → i = j)
    (hco : ∀ a b, a < T → b < T → co a = co b → a = b)
    (htr : ∀ j ∈ tr, j < N)
    (hcnt : ∀ j, j < N → tr.count j = T)
    (hT : 1 ≤ T) :
    (execTrace ow co tr (fun _ => 0) ([], 0)).1.length = N ∧
    (execTrace ow co tr (fun _ => 0) ([], 0)).2 = N ∧
    ∀ i, i < N →
      getSet (ow i) (execTrace ow co tr (fun _ => 0) ([], 0)).1 =
        (List.range T).map co := by
  have hbound : ∀ j, (fun _ => (0 : Nat)) j + tr.count j ≤ T := by
    intro j
    by_cases hj : j < N
    · simp [hcnt j hj]
    · have hzero : tr.count j = 0 := by
        rw [List.count_eq_zero]
        intro hmem
        exact hj (htr j hmem)
      simp [hzero]
  have hinv0 : TraceInv N ow co (fun _ => 0) ([], 0) := by
    refine ⟨?_, ?_, ?_⟩
    · intro i hi
      simp [lookupA]
    · simp [createdCount]
    · simp [createdCount]
  have hfinal :=
    execTrace_inv N T ow co how hco tr (fun _ => 0) ([], 0) htr hbound hinv0
  obtain ⟨hlook, hlen, hfc⟩ := hfinal
  simp only [Nat.zero_add] at hlook hlen hfc
  have hfull : createdCount N (fun j => tr.count j) = N := by
    rw [createdCount]
    have hall : (Finset.range N).filter (fun j => tr.count j ≠ 0) =
        Finset.range N := by
      ext j
      simp only [Finset.mem_filter, Finset.mem_range, and_iff_left_iff_imp]
      intro hj
      rw [hcnt j hj]
      omega
    rw [hall, Finset.card_range]
  refine ⟨by rw [hlen, hfull], by rw [hfc, hfull], ?_⟩
  intro i hi
  have hli := hlook i hi
  rw [hcnt i hi] at hli
  rw [getSet, hli, if_neg (by omega)]
  rfl

/-- Witness for the amended C4: one worker, one record action. -/
theorem conc_record_no_lost_map_updates_witness :
    (execTrace (fun _ => ['a']) (fun _ => ['c']) [0]
        (fun _ => 0) ([], 0)).1.length = 1 ∧
    (execTrace (fun _ => ['a']) (fun _ => ['c']) [0]
        (fun _ => 0) ([], 0)).2 = 1 ∧
    getSet ['a'] (execTrace (fun _ => ['a']) (fun _ => ['c']) [0]
        (fun _ => 0) ([], 0)).1 =
      (List.range 1).map (fun _ => ['c']) := by
  have h := conc_record_no_lost_map_updates 1 1 (fun _ => ['a'])
    (fun _ => ['c']) [0]
    (fun i j hi hj _ => by omega) (fun a b ha hb _ => by omega)
    (by simp) (fun j hj => by interval_cases j; decide) (by omega)
  exact ⟨h.1, h.2.1, h.2.2 0 (by omega)⟩

/-- Counterexample for C4 as stated: the source increments `lineCount`,
`matchCount` and `ignoreCount` outside `writeLock`, so an increment is a
load followed by a store of the loaded value plus one.  Under the
interleaving load(0), load(1), store(0), store(1) the shared counter ends at
1 although two increment events occurred: an update is lost, so the shared
counters do not equal the true event counts under every interleaving. -/
theorem racy_counter_lost_update_cex :
    runCnt [CntAct.load 0, CntAct.load 1, CntAct.store 0, CntAct.store 1]
        (fun _ => 0) 0 = 1 ∧ (1 : Nat) ≠ 2 := by
  constructor
  · decide
  · decide

end EximCrunch
